import Mathlib

/-!
Shallow embedding of the `relname` Go package (relname.go): strings are
modelled as `List Char` (the package computes offsets from whole-part
lengths, so rune-level modelling preserves the byte-level semantics),
`uint16` offsets as `Nat` reduced modulo 2^16, and Go's fallible slicing
`s[a:b]` as an `Option`-valued operation that is `none` exactly when Go
would panic.  Constructors mirror Go's `(value, error)` return convention
as a pair of the value and an optional error.
-/

namespace Relname

/-- Whitespace per Go's regexp `\s` (RE2 Perl class): tab, newline,
form feed, carriage return, space. -/
def isWS (c : Char) : Bool :=
  c = ' ' || c = '\t' || c = '\n' || c = '\r' || c = '\x0c'

/-- The effect of `reWhitespace.ReplaceAllString(s, " ")`: each maximal run
of whitespace characters becomes a single space (the single space is
emitted at the last character of each run, which keeps the recursion
structural; `collapseWS_cons_pos` recovers the run-at-a-time equation). -/
def collapseWS : List Char → List Char
  | [] => []
  | [c] => if isWS c then [' '] else [c]
  | c :: d :: cs =>
    if isWS c then
      if isWS d then collapseWS (d :: cs)
      else ' ' :: collapseWS (d :: cs)
    else c :: collapseWS (d :: cs)

/-- The index-juggling second half of `CleanString`: remove at most one
leading and at most one trailing space (with the early return for a
single-space string). -/
def trimGo : List Char → List Char
  | [] => []
  | [c] => if c = ' ' then [] else [c]
  | c :: d :: cs =>
    let t1 := if c = ' ' then d :: cs else c :: d :: cs
    if (c :: d :: cs).getLast? = some ' ' then t1.dropLast else t1

/-- `CleanString` from relname.go: collapse whitespace runs to single
spaces, then trim a leading/trailing space. -/
def cleanString (s : List Char) : List Char :=
  trimGo (collapseWS s)

/-- Negation of `isWS`, named so proofs can rewrite with it. -/
def notWS (c : Char) : Bool := !isWS c

/-- Spec-side: the maximal runs of non-whitespace characters of a string
(its "words"), in order, with the whitespace runs discarded. -/
def wordsOf : List Char → List (List Char)
  | [] => []
  | c :: cs =>
    if isWS c then wordsOf (cs.dropWhile isWS)
    else (c :: cs.takeWhile notWS) :: wordsOf (cs.dropWhile notWS)
termination_by l => l.length
decreasing_by
  · simpa using Nat.lt_succ_of_le (List.dropWhile_suffix isWS).sublist.length_le
  · simpa using Nat.lt_succ_of_le (List.dropWhile_suffix _).sublist.length_le

/-- Spec-side: joins words with single separating spaces. -/
def joinWords : List (List Char) → List Char
  | [] => []
  | [w] => w
  | w :: ws => w ++ ' ' :: joinWords ws

/-- One space when the string begins with whitespace, else nothing. -/
def leadMark (s : List Char) : List Char :=
  match s.head? with
  | some c => if isWS c then [' '] else []
  | none => []

/-- One space when the string ends with whitespace, else nothing. -/
def trailMark (s : List Char) : List Char :=
  match s.getLast? with
  | some c => if isWS c then [' '] else []
  | none => []

/-- Spec-side: a string already in normalized form, i.e. a sequence of
nonempty whitespace-free words separated by single spaces, with no leading
or trailing whitespace. -/
def IsCleanForm (s : List Char) : Prop :=
  ∃ ws : List (List Char),
    (∀ w ∈ ws, w ≠ [] ∧ ∀ c ∈ w, isWS c = false) ∧ s = joinWords ws

/-- The `Name` struct: normalized(-intended) text plus `uint16` surname
offsets, modelled as naturals that constructors reduce modulo 2^16. -/
structure Name where
  text : List Char
  boSurname : Nat
  eoSurname : Nat
deriving DecidableEq

/-- The zero value `Name{}`. -/
def Name.zero : Name := ⟨[], 0, 0⟩

/-- `EmptyPartError` from relname.go: constructor arity plus the raw
(unnormalized) arguments; unsupplied arguments are recorded as `""`. -/
structure EmptyPartError where
  numArgs : Nat
  arg1 : List Char
  arg2 : List Char
  arg3 : List Char
deriving DecidableEq

/-- `NewName1` from relname.go.  Note that on success the source stores the
raw argument `text` and its raw length, not the cleaned string `t`. -/
def NewName1 (text : List Char) : Name × Option EmptyPartError :=
  let t := cleanString text
  if t = [] then (Name.zero, some ⟨1, text, [], []⟩)
  else (⟨text, 0, text.length % 65536⟩, none)

/-- `NewName2` from relname.go. -/
def NewName2 (forename surname : List Char) : Name × Option EmptyPartError :=
  let f := cleanString forename
  let s := cleanString surname
  if f = [] ∨ s = [] then (Name.zero, some ⟨2, forename, surname, []⟩)
  else
    let text := f ++ ' ' :: s
    (⟨text, (f.length + 1) % 65536, text.length % 65536⟩, none)

/-- `NewName3` from relname.go: the surname span is computed from
`text = f + " " + s` while the stored string additionally carries the
generation suffix. -/
def NewName3 (forename surname generation : List Char) :
    Name × Option EmptyPartError :=
  let f := cleanString forename
  let s := cleanString surname
  let g := cleanString generation
  if f = [] ∨ s = [] ∨ g = [] then (Name.zero, some ⟨3, forename, surname, generation⟩)
  else
    let text := f ++ ' ' :: s
    (⟨text ++ ' ' :: g, (f.length + 1) % 65536, text.length % 65536⟩, none)

/-- Go slicing `l[a:b]`: defined exactly when `a ≤ b ≤ len(l)`, `none`
models the run-time panic on an out-of-range slice. -/
def goSlice (l : List Char) (a b : Nat) : Option (List Char) :=
  if a ≤ b ∧ b ≤ l.length then some ((l.take b).drop a) else none

/-- `Common()`. -/
def Name.Common (n : Name) : List Char := n.text

/-- `String()` on `Name` (same as `Common()`). -/
def Name.String (n : Name) : List Char := n.text

/-- `Surname()`: `n.text[n.boSurname:n.eoSurname]`. -/
def Name.Surname (n : Name) : Option (List Char) :=
  goSlice n.text n.boSurname n.eoSurname

/-- `Forename()`: `""` when `boSurname == 0`, else `n.text[:n.boSurname-1]`. -/
def Name.Forename (n : Name) : Option (List Char) :=
  if n.boSurname = 0 then some []
  else goSlice n.text 0 (n.boSurname - 1)

/-- `Generation()`: the guard compares `eoSurname` with `uint16(len(text))`,
hence the modulus on the length. -/
def Name.Generation (n : Name) : Option (List Char) :=
  if n.eoSurname = n.text.length % 65536 then some []
  else goSlice n.text (n.eoSurname + 1) n.text.length

/-- `FileAs()`: surname, comma-space, forename, and the generation suffix
when `eoSurname < uint16(len(text))`. -/
def Name.FileAs (n : Name) : Option (List Char) :=
  if n.boSurname = 0 then some n.text
  else
    match goSlice n.text n.boSurname n.eoSurname,
          goSlice n.text 0 (n.boSurname - 1) with
    | some sur, some fore =>
      let faName := sur ++ ',' :: ' ' :: fore
      if n.eoSurname < n.text.length % 65536 then
        match goSlice n.text (n.eoSurname + 1) n.text.length with
        | some gen => some (faName ++ ' ' :: gen)
        | none => none
      else some faName
    | _, _ => none

/-- `NumParts()`; the second guard is `eoSurname == uint16(len(text))`. -/
def Name.NumParts (n : Name) : Nat :=
  if n.boSurname = 0 then
    if n.text = [] then 0 else 1
  else if n.eoSurname = n.text.length % 65536 then 2
  else 3

/-- `RelatedName`: an embedded `Name` plus the `[3]byte` relator code,
modelled as a list of characters. -/
structure RelatedName where
  name : Name
  relCode : List Char
deriving DecidableEq

/-- The zero value `RelatedName{}` ([3]byte zeroes are three NUL bytes). -/
def RelatedName.zero : RelatedName :=
  ⟨Name.zero, List.replicate 3 (Char.ofNat 0)⟩

/-- The regexp `^[a-z][a-z][a-z]$`: exactly three lowercase ASCII letters. -/
def matchRelator (c : List Char) : Bool :=
  c.length = 3 && c.all fun ch => decide ('a' ≤ ch ∧ ch ≤ 'z')

/-- The two error kinds of `NewRelatedName`: `BadRelatorCode` (carrying the
name and the offending code) and `BadName` (carrying the code). -/
inductive RelNameError where
  | badRelatorCode (n : Name) (c : List Char)
  | badName (c : List Char)
deriving DecidableEq

/-- `NewRelatedName` from relname.go: the relator-code check runs first,
then the zero-name check, then the code bytes are copied. -/
def NewRelatedName (n : Name) (relatorCode : List Char) :
    RelatedName × Option RelNameError :=
  if matchRelator relatorCode = false then
    (RelatedName.zero, some (.badRelatorCode n relatorCode))
  else if n.NumParts = 0 then
    (RelatedName.zero, some (.badName relatorCode))
  else
    (⟨n, relatorCode.take 3⟩, none)

/-- `Relator()`: the stored 3-byte code, as a string. -/
def RelatedName.Relator (rn : RelatedName) : List Char := rn.relCode

/-- `String()` on `RelatedName`: `rn.Name.text + " (" + rn.Relator() + ")"`. -/
def RelatedName.String (rn : RelatedName) : List Char :=
  rn.name.text ++ ' ' :: '(' :: (rn.Relator ++ [')'])

/-! ### Lemmas about the whitespace normalizer -/

theorem collapseWS_nil : collapseWS [] = [] := rfl

theorem collapseWS_cons_pos_go :
    ∀ (cs : List Char) {c : Char}, isWS c = true →
      collapseWS (c :: cs) = ' ' :: collapseWS (cs.dropWhile isWS)
  | [], c, h => by simp [collapseWS, h]
  | d :: ds, c, h => by
    by_cases hd : isWS d
    · have h1 : collapseWS (c :: d :: ds) = collapseWS (d :: ds) := by
        simp [collapseWS, h, hd]
      rw [h1, collapseWS_cons_pos_go ds hd, List.dropWhile_cons, if_pos hd]
    · have h1 : collapseWS (c :: d :: ds) = ' ' :: collapseWS (d :: ds) := by
        simp [collapseWS, h, hd]
      rw [h1, List.dropWhile_cons, if_neg hd]

theorem collapseWS_cons_pos {c : Char} (h : isWS c = true) (cs : List Char) :
    collapseWS (c :: cs) = ' ' :: collapseWS (cs.dropWhile isWS) :=
  collapseWS_cons_pos_go cs h

theorem collapseWS_cons_neg {c : Char} (h : isWS c = false) (cs : List Char) :
    collapseWS (c :: cs) = c :: collapseWS cs := by
  cases cs with
  | nil => simp [collapseWS, h]
  | cons d ds => simp [collapseWS, h]

theorem collapseWS_append_notWS {w : List Char}
    (hw : ∀ c ∈ w, isWS c = false) (r : List Char) :
    collapseWS (w ++ r) = w ++ collapseWS r := by
  induction w with
  | nil => simp
  | cons c cs ih =>
    have hc : isWS c = false := hw c (by simp)
    simp only [List.cons_append, collapseWS_cons_neg hc]
    rw [ih fun x hx => hw x (by simp [hx])]

theorem dropWhile_eq_cons_head {p : Char → Bool} :
    ∀ {l : List Char} {c : Char} {t : List Char},
      l.dropWhile p = c :: t → p c = false := by
  intro l
  induction l with
  | nil => intro c t h; simp [List.dropWhile] at h
  | cons x xs ih =>
    intro c t h
    by_cases hx : p x
    · rw [List.dropWhile_cons, if_pos hx] at h; exact ih h
    · rw [List.dropWhile_cons, if_neg hx] at h
      injection h with h1 _
      subst h1
      simpa using hx

theorem takeWhile_all_append {p : Char → Bool} {a : List Char}
    (ha : ∀ x ∈ a, p x = true) (b : List Char) :
    (a ++ b).takeWhile p = a ++ b.takeWhile p := by
  induction a with
  | nil => simp
  | cons x xs ih =>
    have hx : p x = true := ha x (by simp)
    simp only [List.cons_append, List.takeWhile_cons, hx, if_pos]
    rw [ih fun y hy => ha y (by simp [hy])]

theorem dropWhile_all_append {p : Char → Bool} {a : List Char}
    (ha : ∀ x ∈ a, p x = true) (b : List Char) :
    (a ++ b).dropWhile p = b.dropWhile p := by
  induction a with
  | nil => simp
  | cons x xs ih =>
    have hx : p x = true := ha x (by simp)
    simp only [List.cons_append, List.dropWhile_cons, hx, if_pos]
    exact ih fun y hy => ha y (by simp [hy])

theorem getLast?_append_ne_nil {a b : List Char} (hb : b ≠ []) :
    (a ++ b).getLast? = b.getLast? := by
  rw [List.getLast?_append, List.getLast?_eq_getLast b hb, Option.or_some]

theorem getLast?_dropWhile_ne_nil {p : Char → Bool} {l : List Char}
    (h : l.dropWhile p ≠ []) : (l.dropWhile p).getLast? = l.getLast? := by
  obtain ⟨t, ht⟩ := List.dropWhile_suffix p (l := l)
  conv_rhs => rw [← ht]
  rw [getLast?_append_ne_nil h]

theorem mem_of_getLast_eq_some {l : List Char} {a : Char}
    (h : l.getLast? = some a) : a ∈ l := by
  cases l with
  | nil => simp at h
  | cons x xs =>
    rw [List.getLast?_eq_getLast (x :: xs) (by simp)] at h
    injection h with h1
    exact h1 ▸ List.getLast_mem (by simp)

theorem trimGo_of_clean {t : List Char} (h1 : t.head? ≠ some ' ')
    (h2 : t.getLast? ≠ some ' ') : trimGo t = t := by
  match t with
  | [] => rfl
  | [c] =>
    have hc : ¬(c = ' ') := fun hc => h1 (by simp [hc])
    simp [trimGo, hc]
  | c :: d :: cs =>
    have hc : ¬(c = ' ') := fun hc => h1 (by simp [hc])
    simp only [trimGo, if_neg hc, if_neg h2]

theorem trimGo_wrap {mid : List Char} (hne : mid ≠ [])
    (h1 : mid.head? ≠ some ' ') (h2 : mid.getLast? ≠ some ' ')
    {l t : List Char} (hl : l = [] ∨ l = [' ']) (ht : t = [] ∨ t = [' ']) :
    trimGo (l ++ mid ++ t) = mid := by
  obtain ⟨m, ms, rfl⟩ : ∃ m ms, mid = m :: ms := by
    cases mid with
    | nil => exact absurd rfl hne
    | cons m ms => exact ⟨m, ms, rfl⟩
  have hm : ¬(m = ' ') := fun hc => h1 (by simp [hc])
  rcases hl with rfl | rfl <;> rcases ht with rfl | rfl
  · simpa using trimGo_of_clean h1 h2
  · rcases hx : ms ++ [' '] with - | ⟨d, ds⟩
    · simp at hx
    · have hlist : (m :: ms) ++ [' '] = m :: d :: ds := by simp [hx]
      have hlast : (m :: d :: ds).getLast? = some ' ' := by
        rw [← hlist, getLast?_append_ne_nil (by simp)]; rfl
      rw [List.nil_append, hlist]
      simp only [trimGo]
      rw [if_pos hlast, if_neg hm, ← hlist, List.dropLast_concat]
  · have hlist : [' '] ++ (m :: ms) ++ [] = ' ' :: m :: ms := by simp
    rw [hlist]
    have hlast : ¬((' ' :: m :: ms).getLast? = some ' ') := by
      rw [List.getLast?_cons_cons]; exact h2
    simp only [trimGo]
    rw [if_neg hlast]
    simp
  · rcases hx : ms ++ [' '] with - | ⟨d, ds⟩
    · simp at hx
    · have he : m :: d :: ds = (m :: ms) ++ [' '] := by simp [hx]
      have hlist : [' '] ++ (m :: ms) ++ [' '] = ' ' :: m :: d :: ds := by
        simp [hx]
      rw [hlist]
      have hlast : (' ' :: m :: d :: ds).getLast? = some ' ' := by
        rw [List.getLast?_cons_cons, he, getLast?_append_ne_nil (by simp)]
        rfl
      simp only [trimGo]
      rw [if_pos hlast]
      simp only [if_true]
      rw [he, List.dropLast_concat]

/-! ### Lemmas about the word decomposition -/

theorem wordsOf_nil : wordsOf [] = [] := by
  simp [wordsOf]

theorem wordsOf_cons_pos {c : Char} (h : isWS c = true) (cs : List Char) :
    wordsOf (c :: cs) = wordsOf (cs.dropWhile isWS) := by
  simp [wordsOf, h]

theorem wordsOf_cons_neg {c : Char} (h : isWS c = false) (cs : List Char) :
    wordsOf (c :: cs) =
      (c :: cs.takeWhile notWS) :: wordsOf (cs.dropWhile notWS) := by
  simp [wordsOf, h]

theorem wordsOf_eq_nil_of_allWS :
    ∀ s : List Char, (∀ c ∈ s, isWS c = true) → wordsOf s = []
  | [], _ => wordsOf_nil
  | c :: cs, h => by
    have hc : isWS c = true := h c (by simp)
    rw [wordsOf_cons_pos hc]
    exact wordsOf_eq_nil_of_allWS (cs.dropWhile isWS) fun x hx =>
      h x (List.mem_cons_of_mem c ((List.dropWhile_suffix isWS).sublist.subset hx))
termination_by s => s.length
decreasing_by
  simpa using Nat.lt_succ_of_le (List.dropWhile_suffix isWS).sublist.length_le

theorem allWS_of_wordsOf_eq_nil :
    ∀ s : List Char, wordsOf s = [] → ∀ c ∈ s, isWS c = true
  | [], _ => by simp
  | c :: cs, h => by
    by_cases hc : isWS c
    · rw [wordsOf_cons_pos hc] at h
      intro x hx
      rcases List.mem_cons.mp hx with rfl | hxs
      · exact hc
      · rw [← List.takeWhile_append_dropWhile (p := isWS) (l := cs)] at hxs
        rcases List.mem_append.mp hxs with h1 | h2
        · exact List.mem_takeWhile_imp h1
        · exact allWS_of_wordsOf_eq_nil (cs.dropWhile isWS) h x h2
    · rw [wordsOf_cons_neg (by simpa using hc)] at h
      exact absurd h (by simp)
termination_by s => s.length
decreasing_by
  simpa using Nat.lt_succ_of_le (List.dropWhile_suffix isWS).sublist.length_le

theorem mem_wordsOf :
    ∀ (s : List Char) {w : List Char}, w ∈ wordsOf s →
      w ≠ [] ∧ ∀ c ∈ w, isWS c = false
  | [], w, h => by rw [wordsOf_nil] at h; exact absurd h (by simp)
  | c :: cs, w, h => by
    by_cases hc : isWS c
    · rw [wordsOf_cons_pos hc] at h
      exact mem_wordsOf (cs.dropWhile isWS) h
    · have hc2 : isWS c = false := by simpa using hc
      rw [wordsOf_cons_neg hc2] at h
      rcases List.mem_cons.mp h with rfl | h2
      · refine ⟨by simp, ?_⟩
        intro x hx
        rcases List.mem_cons.mp hx with rfl | hxs
        · exact hc2
        · have := List.mem_takeWhile_imp hxs
          simpa [notWS] using this
      · exact mem_wordsOf (cs.dropWhile notWS) h2
termination_by s => s.length
decreasing_by
  all_goals
    simpa using Nat.lt_succ_of_le (List.dropWhile_suffix _).sublist.length_le

theorem joinWords_cons_cons (w w2 : List Char) (t : List (List Char)) :
    joinWords (w :: w2 :: t) = w ++ ' ' :: joinWords (w2 :: t) := by
  simp [joinWords]

theorem joinWords_ne_nil {w : List Char} (hw : w ≠ []) (t : List (List Char)) :
    joinWords (w :: t) ≠ [] := by
  cases t with
  | nil => simpa [joinWords]
  | cons w2 t2 => simp [joinWords_cons_cons]

theorem joinWords_headq {w : List Char} (hw : w ≠ []) (t : List (List Char)) :
    (joinWords (w :: t)).head? = w.head? := by
  cases t with
  | nil => rfl
  | cons w2 t2 =>
    rw [joinWords_cons_cons, List.head?_append, List.head?_eq_head hw,
      Option.or_some]

theorem joinWords_head_not_space {w : List Char} {t : List (List Char)}
    (hgood : ∀ u ∈ w :: t, u ≠ [] ∧ ∀ c ∈ u, isWS c = false) :
    (joinWords (w :: t)).head? ≠ some ' ' := by
  obtain ⟨hw, hwc⟩ := hgood w (by simp)
  rw [joinWords_headq hw]
  intro h
  have hmem : ' ' ∈ w := List.mem_of_mem_head? (Option.mem_def.mpr h)
  exact absurd (hwc ' ' hmem) (by decide)

theorem joinWords_getLast_not_space :
    ∀ {ws : List (List Char)},
      (∀ u ∈ ws, u ≠ [] ∧ ∀ c ∈ u, isWS c = false) → ws ≠ [] →
      (joinWords ws).getLast? ≠ some ' ' := by
  intro ws
  induction ws with
  | nil => intro _ h; exact absurd rfl h
  | cons w t ih =>
    intro hgood _
    cases t with
    | nil =>
      intro h
      have hmem : ' ' ∈ w := mem_of_getLast_eq_some h
      exact absurd ((hgood w (by simp)).2 ' ' hmem) (by decide)
    | cons w2 t2 =>
      rw [joinWords_cons_cons, getLast?_append_ne_nil (by simp)]
      have hw2 : w2 ≠ [] := (hgood w2 (by simp)).1
      rcases hjw : joinWords (w2 :: t2) with - | ⟨j, js⟩
      · exact absurd hjw (joinWords_ne_nil hw2 t2)
      · rw [List.getLast?_cons_cons, ← hjw]
        exact ih (fun u hu => hgood u (by simp [hu])) (by simp)

/-! ### The characterization of `collapseWS` and `cleanString` -/

theorem collapseWS_formula :
    ∀ s : List Char,
      collapseWS s = leadMark s ++ joinWords (wordsOf s) ++
        (if wordsOf s = [] then [] else trailMark s)
  | [] => by simp [collapseWS_nil, wordsOf_nil, joinWords, leadMark]
  | c :: cs => by
    by_cases hc : isWS c
    case pos =>
      rw [collapseWS_cons_pos hc, wordsOf_cons_pos hc]
      have hlead : leadMark (c :: cs) = [' '] := by simp [leadMark, hc]
      rw [hlead]
      rcases hr : cs.dropWhile isWS with - | ⟨x, xt⟩
      · rw [collapseWS_nil, wordsOf_nil]
        simp [joinWords]
      · have hx : isWS x = false := dropWhile_eq_cons_head hr
        have IH := collapseWS_formula (cs.dropWhile isWS)
        rw [hr] at IH
        have hwne : wordsOf (x :: xt) ≠ [] := by
          rw [wordsOf_cons_neg hx]; simp
        have hlr : leadMark (x :: xt) = [] := by simp [leadMark, hx]
        rw [hlr, if_neg hwne] at IH
        rw [IH, if_neg hwne]
        have hcs : cs ≠ [] := by
          intro h0; rw [h0] at hr; exact absurd hr (by simp [List.dropWhile])
        have h1 : (c :: cs).getLast? = cs.getLast? := by
          rcases cs with - | ⟨d, ds⟩
          · exact absurd rfl hcs
          · exact List.getLast?_cons_cons
        have h2 : (x :: xt).getLast? = cs.getLast? := by
          rw [← hr]
          exact getLast?_dropWhile_ne_nil (by rw [hr]; simp)
        have htr : trailMark (c :: cs) = trailMark (x :: xt) := by
          unfold trailMark
          rw [h1, h2]
        rw [htr]
        simp
    case neg =>
      have hc2 : isWS c = false := by simpa using hc
      have hsplit : c :: cs = (c :: cs.takeWhile notWS) ++ cs.dropWhile notWS := by
        simp [List.takeWhile_append_dropWhile]
      have hw : ∀ y ∈ c :: cs.takeWhile notWS, isWS y = false := by
        intro y hy
        rcases List.mem_cons.mp hy with rfl | hys
        · exact hc2
        · have := List.mem_takeWhile_imp hys
          simpa [notWS] using this
      rw [wordsOf_cons_neg hc2]
      have hlead : leadMark (c :: cs) = [] := by simp [leadMark, hc2]
      rw [hlead]
      conv_lhs => rw [hsplit]
      rw [collapseWS_append_notWS hw]
      rcases hr : cs.dropWhile notWS with - | ⟨x, xt⟩
      · rw [collapseWS_nil, List.append_nil, wordsOf_nil]
        have htr : trailMark (c :: cs) = [] := by
          rcases hg : (c :: cs).getLast? with - | g
          · simp [trailMark, hg]
          · have hmem : g ∈ c :: cs := mem_of_getLast_eq_some hg
            rw [hsplit, hr, List.append_nil] at hmem
            simp [trailMark, hg, hw g hmem]
        rw [htr]
        simp [joinWords]
      · have hx : notWS x = false := dropWhile_eq_cons_head hr
        have hx2 : isWS x = true := by simpa [notWS] using hx
        have IH := collapseWS_formula (cs.dropWhile notWS)
        rw [hr] at IH
        have hlr : leadMark (x :: xt) = [' '] := by simp [leadMark, hx2]
        rw [hlr] at IH
        have hlast2 : (c :: cs).getLast? = (x :: xt).getLast? := by
          conv_lhs => rw [hsplit, hr]
          rw [getLast?_append_ne_nil (by simp)]
        rcases hwr : wordsOf (x :: xt) with - | ⟨w2, t2⟩
        · rw [hwr, if_pos rfl] at IH
          simp only [joinWords, List.append_nil] at IH
          rw [IH]
          have hall : ∀ y ∈ x :: xt, isWS y = true :=
            allWS_of_wordsOf_eq_nil _ hwr
          have hne : x :: xt ≠ [] := by simp
          have hg : (x :: xt).getLast? = some ((x :: xt).getLast hne) :=
            List.getLast?_eq_getLast _ hne
          have htr : trailMark (c :: cs) = [' '] := by
            have hgc : (c :: cs).getLast? = some ((x :: xt).getLast hne) := by
              rw [hlast2]; exact hg
            simp [trailMark, hgc, hall _ (List.getLast_mem hne)]
          rw [htr]
          simp [joinWords]
        · have hcne : ¬(w2 :: t2 = ([] : List (List Char))) := by simp
          rw [hwr, if_neg hcne] at IH
          rw [IH]
          have hgne : ¬((c :: cs.takeWhile notWS) :: w2 :: t2 = ([] : List (List Char))) := by
            simp
          rw [if_neg hgne]
          have htr : trailMark (c :: cs) = trailMark (x :: xt) := by
            unfold trailMark
            rw [hlast2]
          rw [htr, joinWords_cons_cons]
          simp
termination_by s => s.length
decreasing_by
  all_goals
    simpa using Nat.lt_succ_of_le (List.dropWhile_suffix _).sublist.length_le

theorem cleanString_eq_joinWords (s : List Char) :
    cleanString s = joinWords (wordsOf s) := by
  unfold cleanString
  rcases hw : wordsOf s with - | ⟨w, t⟩
  · rw [collapseWS_formula s, hw, if_pos rfl]
    simp only [joinWords, List.append_nil]
    rcases hsh : s.head? with - | g
    · simp [leadMark, hsh, trimGo]
    · by_cases hgw : isWS g
      · simp only [leadMark, hsh, hgw, if_true]
        decide
      · simp [leadMark, hsh, hgw, trimGo]
  · rw [collapseWS_formula s, hw, if_neg (by simp)]
    have hgood : ∀ u ∈ w :: t, u ≠ [] ∧ ∀ c ∈ u, isWS c = false := by
      intro u hu
      exact mem_wordsOf s (hw ▸ hu)
    have hne : joinWords (w :: t) ≠ [] := joinWords_ne_nil (hgood w (by simp)).1 t
    have hh : (joinWords (w :: t)).head? ≠ some ' ' := joinWords_head_not_space hgood
    have hg : (joinWords (w :: t)).getLast? ≠ some ' ' :=
      joinWords_getLast_not_space hgood (by simp)
    refine trimGo_wrap hne hh hg ?_ ?_
    · rcases hsh : s.head? with - | g
      · left; simp [leadMark, hsh]
      · by_cases hgw : isWS g
        · right; simp [leadMark, hsh, hgw]
        · left; simp [leadMark, hsh, hgw]
    · rcases hsl : s.getLast? with - | g
      · left; simp [trailMark, hsl]
      · by_cases hgw : isWS g
        · right; simp [trailMark, hsl, hgw]
        · left; simp [trailMark, hsl, hgw]

theorem takeWhile_all {p : Char → Bool} {l : List Char}
    (h : ∀ x ∈ l, p x = true) : l.takeWhile p = l := by
  have := takeWhile_all_append h []
  simpa using this

theorem dropWhile_all {p : Char → Bool} {l : List Char}
    (h : ∀ x ∈ l, p x = true) : l.dropWhile p = [] := by
  have := dropWhile_all_append h []
  simpa using this

theorem wordsOf_joinWords :
    ∀ ws : List (List Char),
      (∀ u ∈ ws, u ≠ [] ∧ ∀ c ∈ u, isWS c = false) →
      wordsOf (joinWords ws) = ws := by
  intro ws
  induction ws with
  | nil => intro _; simpa [joinWords] using wordsOf_nil
  | cons w t ih =>
    intro hgood
    obtain ⟨hwne, hwc⟩ := hgood w (by simp)
    obtain ⟨c, cs, rfl⟩ : ∃ c cs, w = c :: cs := by
      cases w with
      | nil => exact absurd rfl hwne
      | cons c cs => exact ⟨c, cs, rfl⟩
    have hc : isWS c = false := hwc c (by simp)
    have hcsall : ∀ x ∈ cs, notWS x = true := by
      intro x hx
      simp [notWS, hwc x (by simp [hx])]
    cases t with
    | nil =>
      show wordsOf (c :: cs) = [c :: cs]
      rw [wordsOf_cons_neg hc, takeWhile_all hcsall, dropWhile_all hcsall,
        wordsOf_nil]
    | cons w2 t2 =>
      rw [joinWords_cons_cons]
      have hstep : (c :: cs) ++ ' ' :: joinWords (w2 :: t2) =
          c :: (cs ++ ' ' :: joinWords (w2 :: t2)) := by simp
      rw [hstep, wordsOf_cons_neg hc]
      have htk : (cs ++ ' ' :: joinWords (w2 :: t2)).takeWhile notWS = cs := by
        rw [takeWhile_all_append hcsall, List.takeWhile_cons]
        simp [notWS, isWS]
      have hdr : (cs ++ ' ' :: joinWords (w2 :: t2)).dropWhile notWS =
          ' ' :: joinWords (w2 :: t2) := by
        rw [dropWhile_all_append hcsall, List.dropWhile_cons]
        simp [notWS, isWS]
      rw [htk, hdr, wordsOf_cons_pos (by decide)]
      have hw2 : w2 ≠ [] := (hgood w2 (by simp)).1
      rcases hjw : joinWords (w2 :: t2) with - | ⟨j, js⟩
      · exact absurd hjw (joinWords_ne_nil hw2 t2)
      · have hj : isWS j = false := by
          have hh2 : (joinWords (w2 :: t2)).head? = w2.head? := joinWords_headq hw2 t2
          rw [hjw] at hh2
          have hjmem : j ∈ w2 := List.mem_of_mem_head? (Option.mem_def.mpr hh2.symm)
          exact (hgood w2 (by simp)).2 j hjmem
        rw [List.dropWhile_cons, if_neg (by simp [hj]), ← hjw,
          ih fun u hu => hgood u (by simp [hu])]

theorem cleanString_of_isCleanForm {s : List Char} (h : IsCleanForm s) :
    cleanString s = s := by
  obtain ⟨ws, hgood, rfl⟩ := h
  rw [cleanString_eq_joinWords, wordsOf_joinWords ws hgood]

/-- Claim C5: `CleanString` is a total function that replaces each maximal
whitespace run by one space and removes the resulting leading/trailing
space (equivalently, it joins the maximal non-whitespace runs with single
spaces); all-whitespace strings (hence also the empty string) map to the
empty string, and an already-normalized string is returned unchanged. -/
theorem claim_C5_cleanString_normalizes :
    (∀ s : List Char, cleanString s = joinWords (wordsOf s)) ∧
    (∀ s : List Char, (∀ c ∈ s, isWS c = true) → cleanString s = []) ∧
    (∀ s : List Char, IsCleanForm s → cleanString s = s) := by
  refine ⟨cleanString_eq_joinWords, ?_, fun s h => cleanString_of_isCleanForm h⟩
  intro s h
  rw [cleanString_eq_joinWords, wordsOf_eq_nil_of_allWS s h]
  rfl

/-- Witness for C5 at concrete inputs. -/
theorem claim_C5_witness :
    cleanString " \t\n\r ".toList = [] ∧
    cleanString "a b".toList = "a b".toList :=
  ⟨claim_C5_cleanString_normalizes.2.1 " \t\n\r ".toList (by decide),
   claim_C5_cleanString_normalizes.2.2 "a b".toList
     ⟨[['a'], ['b']], by decide, by decide⟩⟩

/-! ### Constructor characterizations -/

theorem NewName1_success {t : List Char} (h : cleanString t ≠ []) :
    NewName1 t = (⟨t, 0, t.length % 65536⟩, none) := by
  simp [NewName1, h]

theorem NewName1_failure {t : List Char} (h : cleanString t = []) :
    NewName1 t = (Name.zero, some ⟨1, t, [], []⟩) := by
  simp [NewName1, h]

theorem NewName2_success {f s : List Char} (hf : cleanString f ≠ [])
    (hs : cleanString s ≠ []) :
    NewName2 f s = (⟨cleanString f ++ ' ' :: cleanString s,
      ((cleanString f).length + 1) % 65536,
      (cleanString f ++ ' ' :: cleanString s).length % 65536⟩, none) := by
  simp [NewName2, hf, hs]

theorem NewName2_failure {f s : List Char}
    (h : cleanString f = [] ∨ cleanString s = []) :
    NewName2 f s = (Name.zero, some ⟨2, f, s, []⟩) := by
  unfold NewName2
  rw [if_pos h]

theorem NewName3_success {f s g : List Char} (hf : cleanString f ≠ [])
    (hs : cleanString s ≠ []) (hg : cleanString g ≠ []) :
    NewName3 f s g = (⟨(cleanString f ++ ' ' :: cleanString s) ++ ' ' :: cleanString g,
      ((cleanString f).length + 1) % 65536,
      (cleanString f ++ ' ' :: cleanString s).length % 65536⟩, none) := by
  simp [NewName3, hf, hs, hg]

theorem NewName3_failure {f s g : List Char}
    (h : cleanString f = [] ∨ cleanString s = [] ∨ cleanString g = []) :
    NewName3 f s g = (Name.zero, some ⟨3, f, s, g⟩) := by
  unfold NewName3
  rw [if_pos h]

/-- Claim C6: a constructor fails iff at least one supplied argument
normalizes to the empty string; on failure it returns the zero-valued Name
together with an EmptyPartError recording the constructor arity and the
raw value of every supplied argument; on success the error is absent. -/
theorem claim_C6_constructor_errors (t f s g : List Char) :
    ((NewName1 t).2 ≠ none ↔ cleanString t = []) ∧
    (cleanString t = [] → NewName1 t = (Name.zero, some ⟨1, t, [], []⟩)) ∧
    ((NewName2 f s).2 ≠ none ↔ (cleanString f = [] ∨ cleanString s = [])) ∧
    ((cleanString f = [] ∨ cleanString s = []) →
      NewName2 f s = (Name.zero, some ⟨2, f, s, []⟩)) ∧
    ((NewName3 f s g).2 ≠ none ↔
      (cleanString f = [] ∨ cleanString s = [] ∨ cleanString g = [])) ∧
    ((cleanString f = [] ∨ cleanString s = [] ∨ cleanString g = []) →
      NewName3 f s g = (Name.zero, some ⟨3, f, s, g⟩)) := by
  refine ⟨?_, NewName1_failure, ?_, NewName2_failure, ?_, NewName3_failure⟩
  · by_cases h : cleanString t = []
    · rw [NewName1_failure h]; simp [h]
    · rw [NewName1_success h]; simp [h]
  · by_cases hf : cleanString f = []
    · rw [NewName2_failure (Or.inl hf)]; simp [hf]
    · by_cases hs : cleanString s = []
      · rw [NewName2_failure (Or.inr hs)]; simp [hs]
      · rw [NewName2_success hf hs]; simp [hf, hs]
  · by_cases hf : cleanString f = []
    · rw [NewName3_failure (Or.inl hf)]; simp [hf]
    · by_cases hs : cleanString s = []
      · rw [NewName3_failure (Or.inr (Or.inl hs))]; simp [hf, hs]
      · by_cases hg : cleanString g = []
        · rw [NewName3_failure (Or.inr (Or.inr hg))]; simp [hf, hs, hg]
        · rw [NewName3_success hf hs hg]; simp [hf, hs, hg]

/-- Witness for C6 at concrete inputs. -/
theorem claim_C6_witness :
    NewName1 " ".toList = (Name.zero, some ⟨1, " ".toList, [], []⟩) ∧
    NewName2 "a".toList " ".toList =
      (Name.zero, some ⟨2, "a".toList, " ".toList, []⟩) :=
  ⟨(claim_C6_constructor_errors " ".toList "a".toList " ".toList "x".toList).2.1
     (by decide),
   (claim_C6_constructor_errors " ".toList "a".toList " ".toList "x".toList).2.2.2.1
     (Or.inr (by decide))⟩

/-- Claim C1 (code bug): on the input " A " the one-part constructor
succeeds but stores the raw unnormalized text " A " with span end 3 — not
the normalized text "A" with span end 1 required by the claim (and by the
package documentation, which states every constructor argument is passed
through CleanString before use). -/
theorem claim_C1_newName1_stores_raw :
    NewName1 " A ".toList = (⟨" A ".toList, 0, 3⟩, none) ∧
    cleanString " A ".toList = "A".toList ∧
    (NewName1 " A ".toList).1.text ≠ cleanString " A ".toList := by
  refine ⟨?_, ?_, ?_⟩ <;> decide

/-- Claim C3 (code bug): the Name returned by a successful NewName1 call on
a raw argument with surrounding whitespace violates the data-model
invariant that the stored text carries no leading or trailing whitespace
(the source file states this same invariant in a comment). -/
theorem claim_C3_invariant_violated :
    (NewName1 "\tBaen  Books\n".toList).2 = none ∧
    (NewName1 "\tBaen  Books\n".toList).1.text.head? = some '\t' := by
  constructor <;> decide

/-- Claim C4 (code bug): constructing via NewName1 from " B " and from its
trimmed form "B" both succeed but give different Names (different stored
text), contradicting the whitespace-tolerance property; the slip is that
NewName1 stores its raw argument. -/
theorem claim_C4_whitespace_tolerance_fails :
    (NewName1 " B ".toList).2 = none ∧
    (NewName1 (cleanString " B ".toList)).2 = none ∧
    (NewName1 " B ".toList).1 ≠ (NewName1 (cleanString " B ".toList)).1 := by
  refine ⟨?_, ?_, ?_⟩ <;> decide

/-! ### NumParts and RelatedName -/

theorem NumParts_eq_zero_iff {n : Name} (hbe : n.boSurname ≤ n.eoSurname)
    (hel : n.eoSurname ≤ n.text.length) :
    n.NumParts = 0 ↔ n = Name.zero := by
  constructor
  · intro h
    unfold Name.NumParts at h
    by_cases hb : n.boSurname = 0
    · rw [if_pos hb] at h
      by_cases htx : n.text = []
      · have hlz : n.text.length = 0 := by rw [htx]; rfl
        have he : n.eoSurname = 0 := Nat.le_antisymm (hlz ▸ hel) (Nat.zero_le _)
        cases n
        simp_all [Name.zero]
      · rw [if_neg htx] at h
        exact absurd h one_ne_zero
    · rw [if_neg hb] at h
      by_cases he : n.eoSurname = n.text.length % 65536 <;> simp [he] at h
  · intro h
    rw [h]
    rfl

/-- Claim C7: related-name construction validates the code first, failing
with a BadRelatorCode error carrying the name and the code; a zero-valued
Name (with a valid code) fails with a BadName error carrying the code;
otherwise construction succeeds, the Relator accessor returns the code
used at construction, and the display string is the embedded name common
form, a space, and the code in parentheses.  The offset hypotheses are the
data-model invariant on the supplied Name. -/
theorem claim_C7_newRelatedName (n : Name) (code : List Char)
    (hbe : n.boSurname ≤ n.eoSurname) (hel : n.eoSurname ≤ n.text.length) :
    (matchRelator code = false →
      NewRelatedName n code =
        (RelatedName.zero, some (.badRelatorCode n code))) ∧
    (matchRelator code = true → n = Name.zero →
      NewRelatedName n code = (RelatedName.zero, some (.badName code))) ∧
    (matchRelator code = true → n ≠ Name.zero →
      (NewRelatedName n code).2 = none ∧
      (NewRelatedName n code).1.Relator = code ∧
      (NewRelatedName n code).1.String =
        n.Common ++ ' ' :: '(' :: (code ++ [')'])) := by
  refine ⟨?_, ?_, ?_⟩
  · intro h
    unfold NewRelatedName
    rw [if_pos h]
  · intro h hz
    subst hz
    unfold NewRelatedName
    rw [if_neg (by simp [h]), if_pos (by decide)]
  · intro h hz
    have hnp : Name.NumParts n ≠ 0 := by
      intro h0
      exact hz ((NumParts_eq_zero_iff hbe hel).mp h0)
    have hlen : code.length = 3 := by
      unfold matchRelator at h
      rw [Bool.and_eq_true] at h
      exact of_decide_eq_true h.1
    have htake : code.take 3 = code := by
      rw [← hlen, List.take_length]
    unfold NewRelatedName
    rw [if_neg (by simp [h]), if_neg hnp]
    exact ⟨rfl, by simp [RelatedName.Relator, htake],
      by simp [RelatedName.String, RelatedName.Relator, Name.Common, htake]⟩

/-- Witness for C7 at concrete inputs. -/
theorem claim_C7_witness :
    NewRelatedName ⟨"X".toList, 0, 1⟩ "Aut".toList =
      (RelatedName.zero, some (.badRelatorCode ⟨"X".toList, 0, 1⟩ "Aut".toList)) ∧
    (NewRelatedName ⟨"X".toList, 0, 1⟩ "aut".toList).2 = none ∧
    (NewRelatedName ⟨"X".toList, 0, 1⟩ "aut".toList).1.Relator = "aut".toList :=
  ⟨(claim_C7_newRelatedName ⟨"X".toList, 0, 1⟩ "Aut".toList (by decide)
      (by decide)).1 (by decide),
   ((claim_C7_newRelatedName ⟨"X".toList, 0, 1⟩ "aut".toList (by decide)
      (by decide)).2.2 (by decide) (by decide)).1,
   ((claim_C7_newRelatedName ⟨"X".toList, 0, 1⟩ "aut".toList (by decide)
      (by decide)).2.2 (by decide) (by decide)).2.1⟩

/-! ### Slice computations for constructed names -/

theorem cleanString_no_ws {s : List Char} (h : ∀ c ∈ s, isWS c = false) :
    cleanString s = s := by
  cases s with
  | nil => rfl
  | cons c cs =>
    exact cleanString_of_isCleanForm ⟨[c :: cs], by simpa using h, rfl⟩

theorem cleanString_replicate {c : Char} (h : isWS c = false) (n : Nat) :
    cleanString (List.replicate n c) = List.replicate n c :=
  cleanString_no_ws fun x hx => by
    rw [List.eq_of_mem_replicate hx]; exact h

theorem goSlice_take_front (a b : List Char) :
    goSlice (a ++ b) 0 a.length = some a := by
  unfold goSlice
  rw [if_pos ⟨Nat.zero_le _, by simp⟩]
  simp [List.take_left]

theorem goSlice_drop_suffix (a b : List Char) :
    goSlice (a ++ b) a.length (a.length + b.length) = some b := by
  unfold goSlice
  rw [if_pos ⟨Nat.le_add_right _ _, by simp⟩]
  rw [show a.length + b.length = (a ++ b).length from by simp, List.take_length,
    List.drop_left]

theorem goSlice_middle (a b c : List Char) :
    goSlice (a ++ b ++ c) a.length (a.length + b.length) = some b := by
  unfold goSlice
  rw [if_pos ⟨Nat.le_add_right _ _, by simp⟩]
  have h1 : (a ++ b ++ c).take (a.length + b.length) = a ++ b := by
    rw [show a.length + b.length = (a ++ b).length from by simp, List.take_left]
  rw [h1, List.drop_left]

theorem goSlice_suffix_eq {l a b : List Char} {i : Nat}
    (hsplit : l = a ++ b) (hi : i = a.length) :
    goSlice l i l.length = some b := by
  subst hsplit
  subst hi
  unfold goSlice
  rw [if_pos ⟨by simp, Nat.le_refl _⟩]
  rw [List.take_length, List.drop_left]

theorem goSlice_prefix_eq {l a b : List Char} {j : Nat}
    (hsplit : l = a ++ b) (hj : j = a.length) :
    goSlice l 0 j = some a := by
  subst hsplit
  subst hj
  exact goSlice_take_front a b

theorem goSlice_middle_eq {l a b c : List Char} {i j : Nat}
    (hsplit : l = a ++ b ++ c) (hi : i = a.length) (hj : j = a.length + b.length) :
    goSlice l i j = some b := by
  subst hsplit
  subst hi
  subst hj
  exact goSlice_middle a b c

theorem NewName1_snd_none {t : List Char} (h : (NewName1 t).2 = none) :
    cleanString t ≠ [] := by
  intro h0
  rw [NewName1_failure h0] at h
  exact absurd h (by simp)

theorem NewName2_snd_none {f s : List Char} (h : (NewName2 f s).2 = none) :
    cleanString f ≠ [] ∧ cleanString s ≠ [] := by
  by_cases hf : cleanString f = []
  · rw [NewName2_failure (Or.inl hf)] at h
    exact absurd h (by simp)
  · by_cases hs : cleanString s = []
    · rw [NewName2_failure (Or.inr hs)] at h
      exact absurd h (by simp)
    · exact ⟨hf, hs⟩

theorem NewName3_snd_none {f s g : List Char} (h : (NewName3 f s g).2 = none) :
    cleanString f ≠ [] ∧ cleanString s ≠ [] ∧ cleanString g ≠ [] := by
  by_cases hf : cleanString f = []
  · rw [NewName3_failure (Or.inl hf)] at h
    exact absurd h (by simp)
  · by_cases hs : cleanString s = []
    · rw [NewName3_failure (Or.inr (Or.inl hs))] at h
      exact absurd h (by simp)
    · by_cases hg : cleanString g = []
      · rw [NewName3_failure (Or.inr (Or.inr hg))] at h
        exact absurd h (by simp)
      · exact ⟨hf, hs, hg⟩

/-! ### Accessor evaluation on explicit Names -/

theorem Surname_mk (T : List Char) (bo eo : Nat) :
    Name.Surname ⟨T, bo, eo⟩ = goSlice T bo eo := rfl

theorem Forename_mk_pos {bo : Nat} (T : List Char) (eo : Nat) (hbo : ¬(bo = 0)) :
    Name.Forename ⟨T, bo, eo⟩ = goSlice T 0 (bo - 1) := by
  unfold Name.Forename
  exact if_neg hbo

theorem Generation_mk_eq {T : List Char} {eo : Nat} (bo : Nat)
    (h : eo = T.length % 65536) : Name.Generation ⟨T, bo, eo⟩ = some [] := by
  unfold Name.Generation
  exact if_pos h

theorem Generation_mk_ne {T : List Char} {eo : Nat} (bo : Nat)
    (h : ¬(eo = T.length % 65536)) :
    Name.Generation ⟨T, bo, eo⟩ = goSlice T (eo + 1) T.length := by
  unfold Name.Generation
  exact if_neg h

theorem FileAs_mk_sf {T sur fore : List Char} {bo eo : Nat} (hbo : ¬(bo = 0))
    (hsur : goSlice T bo eo = some sur) (hfore : goSlice T 0 (bo - 1) = some fore)
    (hlt : ¬(eo < T.length % 65536)) :
    Name.FileAs ⟨T, bo, eo⟩ = some (sur ++ ',' :: ' ' :: fore) := by
  unfold Name.FileAs
  rw [if_neg hbo, hsur, hfore]
  simp only []
  rw [if_neg hlt]

theorem FileAs_mk_sfg {T sur fore gen : List Char} {bo eo : Nat} (hbo : ¬(bo = 0))
    (hsur : goSlice T bo eo = some sur) (hfore : goSlice T 0 (bo - 1) = some fore)
    (hlt : eo < T.length % 65536) (hgen : goSlice T (eo + 1) T.length = some gen) :
    Name.FileAs ⟨T, bo, eo⟩ = some ((sur ++ ',' :: ' ' :: fore) ++ ' ' :: gen) := by
  unfold Name.FileAs
  rw [if_neg hbo, hsur, hfore]
  simp only []
  rw [if_pos hlt, hgen]

theorem NumParts_mk_one {T : List Char} {bo : Nat} (eo : Nat) (hbo : bo = 0)
    (hT : ¬(T = [])) : Name.NumParts ⟨T, bo, eo⟩ = 1 := by
  unfold Name.NumParts
  rw [if_pos hbo, if_neg hT]

theorem NumParts_mk_two {T : List Char} {bo eo : Nat} (hbo : ¬(bo = 0))
    (heo : eo = T.length % 65536) : Name.NumParts ⟨T, bo, eo⟩ = 2 := by
  unfold Name.NumParts
  rw [if_neg hbo, if_pos heo]

theorem NumParts_mk_three {T : List Char} {bo eo : Nat} (hbo : ¬(bo = 0))
    (heo : ¬(eo = T.length % 65536)) : Name.NumParts ⟨T, bo, eo⟩ = 3 := by
  unfold Name.NumParts
  rw [if_neg hbo, if_neg heo]

theorem goSlice_none {l : List Char} {a b : Nat} (h : ¬(a ≤ b)) :
    goSlice l a b = none := by
  unfold goSlice
  exact if_neg fun hcon => h hcon.1

theorem boSurname_mk (T : List Char) (bo eo : Nat) :
    (Name.mk T bo eo).boSurname = bo := rfl

theorem eoSurname_mk (T : List Char) (bo eo : Nat) :
    (Name.mk T bo eo).eoSurname = eo := rfl

theorem FileAs_mk_zero {T : List Char} {bo : Nat} (eo : Nat) (hbo : bo = 0) :
    Name.FileAs ⟨T, bo, eo⟩ = some T := by
  unfold Name.FileAs
  rw [if_pos hbo]

theorem NewName2_accessors {f s : List Char}
    (hf : cleanString f ≠ []) (hs : cleanString s ≠ [])
    (hlen : (cleanString f).length + 1 + (cleanString s).length < 65536) :
    Name.Surname (NewName2 f s).1 = some (cleanString s) ∧
    Name.Forename (NewName2 f s).1 = some (cleanString f) ∧
    Name.Generation (NewName2 f s).1 = some [] ∧
    Name.FileAs (NewName2 f s).1 =
      some (cleanString s ++ ',' :: ' ' :: cleanString f) ∧
    Name.NumParts (NewName2 f s).1 = 2 := by
  rw [NewName2_success hf hs]
  have hbo : ((cleanString f).length + 1) % 65536 = (cleanString f).length + 1 :=
    Nat.mod_eq_of_lt (by omega)
  have hbo0 : ¬(((cleanString f).length + 1) % 65536 = 0) := by
    rw [hbo]; omega
  have hsplit : cleanString f ++ ' ' :: cleanString s =
      (cleanString f ++ [' ']) ++ cleanString s := by simp
  have hsur : goSlice (cleanString f ++ ' ' :: cleanString s)
      (((cleanString f).length + 1) % 65536)
      ((cleanString f ++ ' ' :: cleanString s).length % 65536) =
      some (cleanString s) := by
    rw [hbo]
    have heo : (cleanString f ++ ' ' :: cleanString s).length % 65536 =
        (cleanString f ++ ' ' :: cleanString s).length :=
      Nat.mod_eq_of_lt (by simp; omega)
    rw [heo]
    exact goSlice_suffix_eq hsplit (by simp)
  have hfore : goSlice (cleanString f ++ ' ' :: cleanString s) 0
      (((cleanString f).length + 1) % 65536 - 1) = some (cleanString f) := by
    rw [hbo]
    exact goSlice_prefix_eq rfl (by omega)
  refine ⟨?_, ?_, ?_, ?_, ?_⟩
  · rw [Surname_mk]
    exact hsur
  · rw [Forename_mk_pos _ _ hbo0]
    exact hfore
  · exact Generation_mk_eq _ rfl
  · exact FileAs_mk_sf hbo0 hsur hfore (by omega)
  · exact NumParts_mk_two hbo0 rfl

theorem NewName3_accessors {f s g : List Char}
    (hf : cleanString f ≠ []) (hs : cleanString s ≠ []) (hg : cleanString g ≠ [])
    (hlen : (cleanString f).length + 1 + (cleanString s).length + 1 +
      (cleanString g).length < 65536) :
    Name.Surname (NewName3 f s g).1 = some (cleanString s) ∧
    Name.Forename (NewName3 f s g).1 = some (cleanString f) ∧
    Name.Generation (NewName3 f s g).1 = some (cleanString g) ∧
    Name.FileAs (NewName3 f s g).1 =
      some ((cleanString s ++ ',' :: ' ' :: cleanString f) ++ ' ' :: cleanString g) ∧
    Name.NumParts (NewName3 f s g).1 = 3 := by
  rw [NewName3_success hf hs hg]
  have hglen : 0 < (cleanString g).length := List.length_pos.mpr hg
  have hT2 : (cleanString f ++ ' ' :: cleanString s).length =
      (cleanString f).length + 1 + (cleanString s).length := by
    simp
    omega
  have hT3 : ((cleanString f ++ ' ' :: cleanString s) ++ ' ' :: cleanString g).length =
      (cleanString f ++ ' ' :: cleanString s).length + 1 + (cleanString g).length := by
    simp
    omega
  have hA : ((cleanString f).length + 1) % 65536 = (cleanString f).length + 1 :=
    Nat.mod_eq_of_lt (by omega)
  have hA0 : ¬(((cleanString f).length + 1) % 65536 = 0) := by
    rw [hA]; omega
  have hB : (cleanString f ++ ' ' :: cleanString s).length % 65536 =
      (cleanString f ++ ' ' :: cleanString s).length :=
    Nat.mod_eq_of_lt (by omega)
  have hC : ((cleanString f ++ ' ' :: cleanString s) ++ ' ' :: cleanString g).length
      % 65536 =
      ((cleanString f ++ ' ' :: cleanString s) ++ ' ' :: cleanString g).length :=
    Nat.mod_eq_of_lt (by omega)
  have hne : ¬((cleanString f ++ ' ' :: cleanString s).length % 65536 =
      ((cleanString f ++ ' ' :: cleanString s) ++ ' ' :: cleanString g).length
        % 65536) := by
    rw [hB, hC]
    omega
  have hlt : (cleanString f ++ ' ' :: cleanString s).length % 65536 <
      ((cleanString f ++ ' ' :: cleanString s) ++ ' ' :: cleanString g).length
        % 65536 := by
    rw [hB, hC]
    omega
  have hsur : goSlice ((cleanString f ++ ' ' :: cleanString s) ++ ' ' :: cleanString g)
      (((cleanString f).length + 1) % 65536)
      ((cleanString f ++ ' ' :: cleanString s).length % 65536) =
      some (cleanString s) := by
    rw [hA, hB]
    refine goSlice_middle_eq (a := cleanString f ++ [' '])
      (c := ' ' :: cleanString g) (by simp) (by simp) (by simp; omega)
  have hfore : goSlice
      ((cleanString f ++ ' ' :: cleanString s) ++ ' ' :: cleanString g) 0
      (((cleanString f).length + 1) % 65536 - 1) = some (cleanString f) := by
    rw [hA]
    refine goSlice_prefix_eq (b := ' ' :: (cleanString s ++ ' ' :: cleanString g))
      (by simp) (by omega)
  have hgen : goSlice ((cleanString f ++ ' ' :: cleanString s) ++ ' ' :: cleanString g)
      ((cleanString f ++ ' ' :: cleanString s).length % 65536 + 1)
      ((cleanString f ++ ' ' :: cleanString s) ++ ' ' :: cleanString g).length =
      some (cleanString g) := by
    rw [hB]
    refine goSlice_suffix_eq (a := (cleanString f ++ ' ' :: cleanString s) ++ [' '])
      (by simp) (by simp; omega)
  refine ⟨?_, ?_, ?_, ?_, ?_⟩
  · rw [Surname_mk]
    exact hsur
  · rw [Forename_mk_pos _ _ hA0]
    exact hfore
  · rw [Generation_mk_ne _ hne]
    exact hgen
  · exact FileAs_mk_sfg hA0 hsur hfore hlt hgen
  · exact NumParts_mk_three hA0 hne

theorem replicate_ne_nil {n : Nat} (h : n ≠ 0) (c : Char) :
    List.replicate n c ≠ [] := by
  intro h0
  have h1 := congrArg List.length h0
  rw [List.length_replicate, List.length_nil] at h1
  exact h h1

theorem append_cons_ne_nil (a : List Char) (c : Char) (b : List Char) :
    a ++ c :: b ≠ [] := by
  intro h0
  have h1 := congrArg List.length h0
  rw [List.length_append, List.length_cons, List.length_nil] at h1
  omega

/-- Claim C2 (corrected): for one-part names FileAs equals Common; for two-
and three-part names FileAs is "surname, forename[ generation]" built from
the normalized parts — provided the normalized text is shorter than 65536
(the uint16 offset fields otherwise wrap, see the counterexample). -/
theorem claim_C2_fileAs_forms :
    (∀ t : List Char, (NewName1 t).2 = none →
      Name.FileAs (NewName1 t).1 = some (Name.Common (NewName1 t).1)) ∧
    (∀ f s : List Char, (NewName2 f s).2 = none →
      (cleanString f).length + 1 + (cleanString s).length < 65536 →
      Name.FileAs (NewName2 f s).1 =
        some (cleanString s ++ ',' :: ' ' :: cleanString f)) ∧
    (∀ f s g : List Char, (NewName3 f s g).2 = none →
      (cleanString f).length + 1 + (cleanString s).length + 1 +
        (cleanString g).length < 65536 →
      Name.FileAs (NewName3 f s g).1 =
        some ((cleanString s ++ ',' :: ' ' :: cleanString f) ++
          ' ' :: cleanString g)) := by
  refine ⟨?_, ?_, ?_⟩
  · intro t h
    rw [NewName1_success (NewName1_snd_none h)]
    unfold Name.FileAs
    rw [if_pos rfl]
    rfl
  · intro f s h hlen
    obtain ⟨hf, hs⟩ := NewName2_snd_none h
    exact (NewName2_accessors hf hs hlen).2.2.2.1
  · intro f s g h hlen
    obtain ⟨hf, hs, hg⟩ := NewName3_snd_none h
    exact (NewName3_accessors hf hs hg hlen).2.2.2.1

/-- Counterexample to C2 as stated: with a normalized forename of length
65535, two-part construction succeeds, the stored boSurname wraps to 0,
and FileAs returns the common form instead of "surname, forename". -/
theorem claim_C2_counterexample :
    (NewName2 (List.replicate 65535 'a') ['b']).2 = none ∧
    Name.FileAs (NewName2 (List.replicate 65535 'a') ['b']).1 ≠
      some (['b'] ++ ',' :: ' ' :: List.replicate 65535 'a') := by
  have hf : cleanString (List.replicate 65535 'a') = List.replicate 65535 'a' :=
    cleanString_replicate (by decide) 65535
  have hb : cleanString ['b'] = ['b'] := cleanString_no_ws (by decide)
  have hfne : cleanString (List.replicate 65535 'a') ≠ [] := by
    rw [hf]; exact replicate_ne_nil (by norm_num) 'a'
  have hbne : cleanString ['b'] ≠ [] := by rw [hb]; exact (by simp)
  have hsucc := NewName2_success hfne hbne
  rw [hf, hb] at hsucc
  refine ⟨by rw [hsucc], ?_⟩
  rw [hsucc]
  have hbo : ((List.replicate 65535 'a').length + 1) % 65536 = 0 := by
    rw [List.length_replicate]
  rw [FileAs_mk_zero _ hbo]
  intro hcon
  injection hcon with hc
  have h1 := congrArg List.head? hc
  rw [show List.replicate 65535 'a' = 'a' :: List.replicate 65534 'a' from by
    rw [show (65535 : Nat) = 65534 + 1 from by norm_num, List.replicate_succ]] at h1
  have h2 : (('a' :: List.replicate 65534 'a') ++ ' ' :: ['b']).head? =
      some 'a' := rfl
  have h3 : ((['b'] : List Char) ++
      ',' :: ' ' :: ('a' :: List.replicate 65534 'a')).head? = some 'b' := rfl
  rw [h2, h3] at h1
  injection h1 with h4
  exact absurd h4 (by decide)

/-- Witness for the amended C2 at concrete inputs. -/
theorem claim_C2_witness :
    Name.FileAs (NewName1 "Baen Books".toList).1 =
      some (Name.Common (NewName1 "Baen Books".toList).1) ∧
    Name.FileAs (NewName2 "Dave".toList "Freer".toList).1 =
      some (cleanString "Freer".toList ++ ',' :: ' ' :: cleanString "Dave".toList) ∧
    Name.FileAs (NewName3 "William H.".toList "Keith".toList "Jr.".toList).1 =
      some ((cleanString "Keith".toList ++ ',' :: ' ' ::
        cleanString "William H.".toList) ++ ' ' :: cleanString "Jr.".toList) :=
  ⟨claim_C2_fileAs_forms.1 "Baen Books".toList (by decide),
   claim_C2_fileAs_forms.2.1 "Dave".toList "Freer".toList (by decide) (by decide),
   claim_C2_fileAs_forms.2.2 "William H.".toList "Keith".toList "Jr.".toList
     (by decide) (by decide)⟩

theorem NumParts_ne_zero_of_text_ne_nil {n : Name} (h : ¬(n.text = [])) :
    Name.NumParts n ≠ 0 := by
  unfold Name.NumParts
  by_cases hb : n.boSurname = 0
  · rw [if_pos hb, if_neg h]
    omega
  · rw [if_neg hb]
    by_cases he : n.eoSurname = n.text.length % 65536
    · rw [if_pos he]; omega
    · rw [if_neg he]; omega

/-- Claim C8 (corrected): the part count equals the constructor arity on
every success — unconditionally for one-part names, and for two- and
three-part names provided the normalized text is shorter than 65536 (otherwise
the uint16 boSurname can wrap to 0, see the counterexample); the part
count is 0 for the zero Name and never 0 for a constructed Name. -/
theorem claim_C8_numParts :
    (∀ t : List Char, (NewName1 t).2 = none →
      Name.NumParts (NewName1 t).1 = 1) ∧
    (∀ f s : List Char, (NewName2 f s).2 = none →
      (cleanString f).length + 1 + (cleanString s).length < 65536 →
      Name.NumParts (NewName2 f s).1 = 2) ∧
    (∀ f s g : List Char, (NewName3 f s g).2 = none →
      (cleanString f).length + 1 + (cleanString s).length + 1 +
        (cleanString g).length < 65536 →
      Name.NumParts (NewName3 f s g).1 = 3) ∧
    Name.NumParts Name.zero = 0 ∧
    (∀ t : List Char, (NewName1 t).2 = none →
      Name.NumParts (NewName1 t).1 ≠ 0) ∧
    (∀ f s : List Char, (NewName2 f s).2 = none →
      Name.NumParts (NewName2 f s).1 ≠ 0) ∧
    (∀ f s g : List Char, (NewName3 f s g).2 = none →
      Name.NumParts (NewName3 f s g).1 ≠ 0) := by
  refine ⟨?_, ?_, ?_, rfl, ?_, ?_, ?_⟩
  · intro t h
    have ht := NewName1_snd_none h
    rw [NewName1_success ht]
    refine NumParts_mk_one _ rfl fun h0 => ht ?_
    rw [h0]
    rfl
  · intro f s h hlen
    obtain ⟨hf, hs⟩ := NewName2_snd_none h
    exact (NewName2_accessors hf hs hlen).2.2.2.2
  · intro f s g h hlen
    obtain ⟨hf, hs, hg⟩ := NewName3_snd_none h
    exact (NewName3_accessors hf hs hg hlen).2.2.2.2
  · intro t h
    have ht := NewName1_snd_none h
    rw [NewName1_success ht]
    refine NumParts_ne_zero_of_text_ne_nil fun h0 => ht ?_
    rw [show t = [] from h0]
    rfl
  · intro f s h
    obtain ⟨hf, hs⟩ := NewName2_snd_none h
    rw [NewName2_success hf hs]
    exact NumParts_ne_zero_of_text_ne_nil (by simp)
  · intro f s g h
    obtain ⟨hf, hs, hg⟩ := NewName3_snd_none h
    rw [NewName3_success hf hs hg]
    exact NumParts_ne_zero_of_text_ne_nil (by simp)

/-- Counterexample to C8 as stated: a normalized forename of length 65535
makes the stored boSurname wrap to 0, so a successful two-part
construction reports part count 1. -/
theorem claim_C8_counterexample :
    (NewName2 (List.replicate 65535 'c') ['d']).2 = none ∧
    Name.NumParts (NewName2 (List.replicate 65535 'c') ['d']).1 = 1 := by
  have hf : cleanString (List.replicate 65535 'c') = List.replicate 65535 'c' :=
    cleanString_replicate (by decide) 65535
  have hd : cleanString ['d'] = ['d'] := cleanString_no_ws (by decide)
  have hfne : cleanString (List.replicate 65535 'c') ≠ [] := by
    rw [hf]; exact replicate_ne_nil (by norm_num) 'c'
  have hdne : cleanString ['d'] ≠ [] := by rw [hd]; exact (by simp)
  have hsucc := NewName2_success hfne hdne
  rw [hf, hd] at hsucc
  refine ⟨by rw [hsucc], ?_⟩
  rw [hsucc]
  refine NumParts_mk_one _ ?_ (append_cons_ne_nil _ _ _)
  rw [List.length_replicate]

/-- Witness for the amended C8 at concrete inputs. -/
theorem claim_C8_witness :
    Name.NumParts (NewName1 "Baen".toList).1 = 1 ∧
    Name.NumParts (NewName2 "Sydney".toList "Van Scyoc".toList).1 = 2 ∧
    Name.NumParts (NewName3 "James".toList "Tiptree".toList "Jr.".toList).1 = 3 :=
  ⟨claim_C8_numParts.1 "Baen".toList (by decide),
   claim_C8_numParts.2.1 "Sydney".toList "Van Scyoc".toList (by decide) (by decide),
   claim_C8_numParts.2.2.1 "James".toList "Tiptree".toList "Jr.".toList
     (by decide) (by decide)⟩

/-- Claim C9 (corrected): every accessor is defined (no out-of-range
slice, hence no panic) on the zero Name and on every successfully
constructed Name — unconditionally for one-part names, and for two- and
three-part names provided the normalized text is shorter than 65536; for
oversized names the surname slice goes out of range (see counterexample). -/
theorem claim_C9_accessor_totality :
    (Name.Surname Name.zero = some [] ∧ Name.Forename Name.zero = some [] ∧
      Name.Generation Name.zero = some [] ∧ Name.FileAs Name.zero = some [] ∧
      Name.Common Name.zero = [] ∧ Name.String Name.zero = [] ∧
      Name.NumParts Name.zero = 0) ∧
    (∀ t : List Char, (NewName1 t).2 = none →
      (Name.Surname (NewName1 t).1).isSome = true ∧
      (Name.Forename (NewName1 t).1).isSome = true ∧
      (Name.Generation (NewName1 t).1).isSome = true ∧
      (Name.FileAs (NewName1 t).1).isSome = true) ∧
    (∀ f s : List Char, (NewName2 f s).2 = none →
      (cleanString f).length + 1 + (cleanString s).length < 65536 →
      (Name.Surname (NewName2 f s).1).isSome = true ∧
      (Name.Forename (NewName2 f s).1).isSome = true ∧
      (Name.Generation (NewName2 f s).1).isSome = true ∧
      (Name.FileAs (NewName2 f s).1).isSome = true) ∧
    (∀ f s g : List Char, (NewName3 f s g).2 = none →
      (cleanString f).length + 1 + (cleanString s).length + 1 +
        (cleanString g).length < 65536 →
      (Name.Surname (NewName3 f s g).1).isSome = true ∧
      (Name.Forename (NewName3 f s g).1).isSome = true ∧
      (Name.Generation (NewName3 f s g).1).isSome = true ∧
      (Name.FileAs (NewName3 f s g).1).isSome = true) := by
  refine ⟨by decide, ?_, ?_, ?_⟩
  · intro t h
    rw [NewName1_success (NewName1_snd_none h)]
    refine ⟨?_, ?_, ?_, ?_⟩
    · rw [Surname_mk]
      unfold goSlice
      rw [if_pos ⟨Nat.zero_le _, Nat.mod_le _ _⟩]
      rfl
    · unfold Name.Forename
      rw [if_pos rfl]
      rfl
    · rw [Generation_mk_eq _ rfl]
      rfl
    · rw [FileAs_mk_zero _ rfl]
      rfl
  · intro f s h hlen
    obtain ⟨hf, hs⟩ := NewName2_snd_none h
    obtain ⟨h1, h2, h3, h4, -⟩ := NewName2_accessors hf hs hlen
    exact ⟨by rw [h1]; rfl, by rw [h2]; rfl, by rw [h3]; rfl, by rw [h4]; rfl⟩
  · intro f s g h hlen
    obtain ⟨hf, hs, hg⟩ := NewName3_snd_none h
    obtain ⟨h1, h2, h3, h4, -⟩ := NewName3_accessors hf hs hg hlen
    exact ⟨by rw [h1]; rfl, by rw [h2]; rfl, by rw [h3]; rfl, by rw [h4]; rfl⟩

/-- Counterexample to C9 as stated: after a successful two-part
construction with a 64999-character forename and a 600-character surname,
the stored offsets are boSurname = 65000 and eoSurname = 65600 mod 65536
= 64, so the surname slice text[65000:64] is out of range — the Go
accessor would panic (modelled as `none`). -/
theorem claim_C9_counterexample :
    (NewName2 (List.replicate 64999 'e') (List.replicate 600 'f')).2 = none ∧
    Name.Surname
      (NewName2 (List.replicate 64999 'e') (List.replicate 600 'f')).1 =
      none := by
  have hf : cleanString (List.replicate 64999 'e') = List.replicate 64999 'e' :=
    cleanString_replicate (by decide) 64999
  have hs : cleanString (List.replicate 600 'f') = List.replicate 600 'f' :=
    cleanString_replicate (by decide) 600
  have hfne : cleanString (List.replicate 64999 'e') ≠ [] := by
    rw [hf]; exact replicate_ne_nil (by norm_num) 'e'
  have hsne : cleanString (List.replicate 600 'f') ≠ [] := by
    rw [hs]; exact replicate_ne_nil (by norm_num) 'f'
  have hsucc := NewName2_success hfne hsne
  rw [hf, hs] at hsucc
  refine ⟨by rw [hsucc], ?_⟩
  rw [hsucc, Surname_mk]
  have hbo : ((List.replicate 64999 'e').length + 1) % 65536 = 65000 := by
    rw [List.length_replicate]
  have heo : (List.replicate 64999 'e' ++ ' ' :: List.replicate 600 'f').length
      % 65536 = 64 := by
    rw [List.length_append, List.length_cons, List.length_replicate,
      List.length_replicate]
  rw [hbo, heo]
  exact goSlice_none (by norm_num)

/-- Witness for the amended C9 at concrete inputs. -/
theorem claim_C9_witness :
    (Name.Surname (NewName1 "Teller".toList).1).isSome = true ∧
    (Name.FileAs (NewName2 "P. C.".toList "Hodgell".toList).1).isSome = true :=
  ⟨(claim_C9_accessor_totality.2.1 "Teller".toList (by decide)).1,
   (claim_C9_accessor_totality.2.2.1 "P. C.".toList "Hodgell".toList
     (by decide) (by decide)).2.2.2⟩

/-- Claim C10: the stored surname offsets are the intended byte offsets
reduced modulo 65536; when the normalized text is shorter than 65536 the
offsets are exact and satisfy the ordering invariant boSurname ≤
eoSurname ≤ length(text); the final existential shows the ordering can
fail on a successful construction once an intended offset reaches 65536
(here eoSurname wraps below boSurname). -/
theorem claim_C10_uint16_offsets :
    (∀ f s : List Char, (NewName2 f s).2 = none →
      (NewName2 f s).1.boSurname = ((cleanString f).length + 1) % 65536 ∧
      (NewName2 f s).1.eoSurname =
        ((cleanString f).length + 1 + (cleanString s).length) % 65536) ∧
    (∀ f s g : List Char, (NewName3 f s g).2 = none →
      (NewName3 f s g).1.boSurname = ((cleanString f).length + 1) % 65536 ∧
      (NewName3 f s g).1.eoSurname =
        ((cleanString f).length + 1 + (cleanString s).length) % 65536) ∧
    (∀ f s : List Char, (NewName2 f s).2 = none →
      (cleanString f).length + 1 + (cleanString s).length < 65536 →
      (NewName2 f s).1.boSurname = (cleanString f).length + 1 ∧
      (NewName2 f s).1.eoSurname =
        (cleanString f).length + 1 + (cleanString s).length ∧
      (NewName2 f s).1.boSurname ≤ (NewName2 f s).1.eoSurname ∧
      (NewName2 f s).1.eoSurname ≤ (NewName2 f s).1.text.length) ∧
    (∀ f s g : List Char, (NewName3 f s g).2 = none →
      (cleanString f).length + 1 + (cleanString s).length + 1 +
        (cleanString g).length < 65536 →
      (NewName3 f s g).1.boSurname ≤ (NewName3 f s g).1.eoSurname ∧
      (NewName3 f s g).1.eoSurname ≤ (NewName3 f s g).1.text.length) ∧
    (∃ f s : List Char, (NewName2 f s).2 = none ∧
      (NewName2 f s).1.eoSurname < (NewName2 f s).1.boSurname) := by
  refine ⟨?_, ?_, ?_, ?_, ?_⟩
  · intro f s h
    obtain ⟨hf, hs⟩ := NewName2_snd_none h
    rw [NewName2_success hf hs]
    refine ⟨rfl, ?_⟩
    show (cleanString f ++ ' ' :: cleanString s).length % 65536 = _
    rw [show (cleanString f ++ ' ' :: cleanString s).length =
      (cleanString f).length + 1 + (cleanString s).length from by simp; omega]
  · intro f s g h
    obtain ⟨hf, hs, hg⟩ := NewName3_snd_none h
    rw [NewName3_success hf hs hg]
    refine ⟨rfl, ?_⟩
    show (cleanString f ++ ' ' :: cleanString s).length % 65536 = _
    rw [show (cleanString f ++ ' ' :: cleanString s).length =
      (cleanString f).length + 1 + (cleanString s).length from by simp; omega]
  · intro f s h hlen
    obtain ⟨hf, hs⟩ := NewName2_snd_none h
    rw [NewName2_success hf hs]
    have hT2 : (cleanString f ++ ' ' :: cleanString s).length =
        (cleanString f).length + 1 + (cleanString s).length := by
      simp
      omega
    have hA : ((cleanString f).length + 1) % 65536 = (cleanString f).length + 1 :=
      Nat.mod_eq_of_lt (by omega)
    have hB : (cleanString f ++ ' ' :: cleanString s).length % 65536 =
        (cleanString f).length + 1 + (cleanString s).length := by
      rw [hT2]
      exact Nat.mod_eq_of_lt (by omega)
    refine ⟨hA, hB, ?_, ?_⟩
    · show ((cleanString f).length + 1) % 65536 ≤
        (cleanString f ++ ' ' :: cleanString s).length % 65536
      rw [hA, hB]
      omega
    · exact Nat.mod_le _ _
  · intro f s g h hlen
    obtain ⟨hf, hs, hg⟩ := NewName3_snd_none h
    rw [NewName3_success hf hs hg]
    have hT2 : (cleanString f ++ ' ' :: cleanString s).length =
        (cleanString f).length + 1 + (cleanString s).length := by
      simp
      omega
    have hA : ((cleanString f).length + 1) % 65536 = (cleanString f).length + 1 :=
      Nat.mod_eq_of_lt (by omega)
    have hB : (cleanString f ++ ' ' :: cleanString s).length % 65536 =
        (cleanString f).length + 1 + (cleanString s).length := by
      rw [hT2]
      exact Nat.mod_eq_of_lt (by omega)
    constructor
    · show ((cleanString f).length + 1) % 65536 ≤
        (cleanString f ++ ' ' :: cleanString s).length % 65536
      rw [hA, hB]
      omega
    · show (cleanString f ++ ' ' :: cleanString s).length % 65536 ≤
        ((cleanString f ++ ' ' :: cleanString s) ++ ' ' :: cleanString g).length
      have hT3 : ((cleanString f ++ ' ' :: cleanString s) ++
          ' ' :: cleanString g).length =
          (cleanString f ++ ' ' :: cleanString s).length + 1 +
            (cleanString g).length := by
        simp
        omega
      refine Nat.le_trans (Nat.mod_le _ _) ?_
      rw [hT3]
      omega
  · refine ⟨List.replicate 64999 'g', List.replicate 600 'h', ?_⟩
    have hf : cleanString (List.replicate 64999 'g') = List.replicate 64999 'g' :=
      cleanString_replicate (by decide) 64999
    have hs : cleanString (List.replicate 600 'h') = List.replicate 600 'h' :=
      cleanString_replicate (by decide) 600
    have hfne : cleanString (List.replicate 64999 'g') ≠ [] := by
      rw [hf]; exact replicate_ne_nil (by norm_num) 'g'
    have hsne : cleanString (List.replicate 600 'h') ≠ [] := by
      rw [hs]; exact replicate_ne_nil (by norm_num) 'h'
    have hsucc := NewName2_success hfne hsne
    rw [hf, hs] at hsucc
    have e1 : (NewName2 (List.replicate 64999 'g') (List.replicate 600 'h')).1 =
        ⟨List.replicate 64999 'g' ++ ' ' :: List.replicate 600 'h',
          ((List.replicate 64999 'g').length + 1) % 65536,
          (List.replicate 64999 'g' ++ ' ' ::
            List.replicate 600 'h').length % 65536⟩ := by
      rw [hsucc]
    have hbo : ((List.replicate 64999 'g').length + 1) % 65536 = 65000 := by
      rw [List.length_replicate]
    have heo : (List.replicate 64999 'g' ++ ' ' :: List.replicate 600 'h').length
        % 65536 = 64 := by
      rw [List.length_append, List.length_cons, List.length_replicate,
        List.length_replicate]
    refine ⟨by rw [hsucc], ?_⟩
    rw [e1, boSurname_mk, eoSurname_mk, hbo, heo]
    omega

/-- Witness for C10 at concrete inputs. -/
theorem claim_C10_witness :
    (NewName2 "Dave".toList "Freer".toList).1.boSurname =
      (cleanString "Dave".toList).length + 1 ∧
    (NewName2 "Dave".toList "Freer".toList).1.eoSurname ≤
      (NewName2 "Dave".toList "Freer".toList).1.text.length :=
  ⟨(claim_C10_uint16_offsets.2.2.1 "Dave".toList "Freer".toList (by decide)
      (by decide)).1,
   (claim_C10_uint16_offsets.2.2.1 "Dave".toList "Freer".toList (by decide)
      (by decide)).2.2.2⟩

end Relname
